import Mathlib

/-!
Shallow embedding of the BSGS discrete-logarithm solver (src/src/lib.rs).

The crate provides two solvers over `num_bigint::BigUint`:
* `BSGS::run (g h p : BigUint) : Option BigUint` — sequential baby-step giant-step;
* `Parallel::run` — identical except the baby-step table is filled by
  `num_cpus` rayon workers over contiguous chunks of `[0, m)`, inserting into
  an `Arc<Mutex<HashMap>>`.

BigUint values are modelled as `Nat`.  `BigUint` subtraction panics on
underflow; the plain model uses truncated `Nat` subtraction and is the faithful
model only for `p ≥ 2`, while the `Checked` variants below model the panics
with `Option` (`none` = panic).  `HashMap<BigUint, BigUint>` is modelled
observationally as an association list whose `insert` overwrites the entry for
an existing key and whose `get` returns the stored value: only insertion order
(last writer wins) is observable through `get`, exactly as for the hash map.
The rayon interleaving of the parallel baby-step insertions is modelled by an
explicit schedule: a list of exponents `j`, in the order in which the workers'
insertions hit the mutex-guarded table; a valid schedule is an interleaving of
the per-worker chunks.
-/

/-- Model of `BigUint::modpow`: `b ^ e mod n` (for a nonzero modulus). -/
def modpow (b e n : Nat) : Nat := b ^ e % n

/-- The step bound `m = (p - 1).sqrt() + 1` computed by both solvers
(line 58 and line 95 of src/src/lib.rs). -/
def stepBound (p : Nat) : Nat := Nat.sqrt (p - 1) + 1

/-- Model of `HashMap::contains_key`. -/
def containsKey : List (Nat × Nat) → Nat → Bool
  | [], _ => false
  | e :: t, k => e.1 = k || containsKey t k

/-- Replace the value stored under an existing key. -/
def replaceEntry : List (Nat × Nat) → Nat → Nat → List (Nat × Nat)
  | [], _, _ => []
  | e :: t, k, v =>
    if e.1 = k then (k, v) :: replaceEntry t k v else e :: replaceEntry t k v

/-- Model of `HashMap::insert k v`: overwrite the entry for `k` if present,
otherwise add one. -/
def insertEntry (t : List (Nat × Nat)) (k v : Nat) : List (Nat × Nat) :=
  if containsKey t k then replaceEntry t k v else t ++ [(k, v)]

/-- Model of `HashMap::get k`: the value of the entry whose key is `k`. -/
def lookupEntry : List (Nat × Nat) → Nat → Option Nat
  | [], _ => none
  | e :: t, k => if e.1 = k then some e.2 else lookupEntry t k

/-- The baby-step phase: insert `(g.modpow(j, p), j)` for each `j` in the list
`js`, in order.  The sequential solver uses `js = List.range m`; the parallel
solver uses an interleaving of the worker chunks. -/
def buildTable (g p : Nat) (js : List Nat) : List (Nat × Nat) :=
  js.foldl (fun t j => insertEntry t (modpow g j p) j) []

/-- The giant-step pre-computation `c = g.modpow(m * (p - 2), p)`
(line 71 and line 125). -/
def giantBase (g p : Nat) : Nat := modpow g (stepBound p * (p - 2)) p

/-- The probe value `temp = (h * c.modpow(i, p)) % p` of giant step `i`
(line 76 and line 129). -/
def giantKey (h c p i : Nat) : Nat := (h * modpow c i p) % p

/-- The giant-step loop: for `i` starting at `i0` and running for `n` further
iterations, probe the table with `giantKey h c p i`; on the first hit `j`
return `i * m + j`, otherwise `none` after the scan (lines 74-84, 127-141). -/
def giantAux (h c p m : Nat) (t : List (Nat × Nat)) : Nat → Nat → Option Nat
  | 0, _ => none
  | n + 1, i =>
    match lookupEntry t (giantKey h c p i) with
    | some j => some (i * m + j)
    | none => giantAux h c p m t n (i + 1)

/-- Model of `BSGS::run` (lines 52-85), for `p ≥ 2` (smaller `p` panics, see
the `Checked` variant). -/
def bsgsRun (g h p : Nat) : Option Nat :=
  giantAux h (giantBase g p) p (stepBound p)
    (buildTable g p (List.range (stepBound p))) (stepBound p) 0

/-- The baby-step sub-range of worker `thread_num` in `Parallel::run`
(lines 102-109): `start = thread_num * (m / num_threads)` and
`end = start + chunk_size`, except that the last worker runs to `m`. -/
def chunk (m nw t : Nat) : List Nat :=
  let cs := m / nw
  if t = nw - 1 then List.range' (t * cs) (m - t * cs)
  else List.range' (t * cs) cs

/-- A valid interleaving of the baby-step insertions of `nw` workers: the
schedule contains exactly the exponents `0, …, m-1`, and the insertions of
each worker occur in their program order (each chunk is a sublist). -/
def IsSchedule (m nw : Nat) (s : List Nat) : Prop :=
  s.Perm (List.range m) ∧ ∀ t, t < nw → (chunk m nw t).Sublist s

/-- Model of `Parallel::run` (lines 89-143), for `p ≥ 2`: the shared table is
filled in the order given by the schedule `s`; the giant-step phase then runs
exactly as in `BSGS::run`. -/
def parallelRun (s : List Nat) (g h p : Nat) : Option Nat :=
  giantAux h (giantBase g p) p (stepBound p) (buildTable g p s) (stepBound p) 0

/-- Checked subtraction: `BigUint` subtraction panics on underflow, modelled
as `none`. -/
def bigSub (a b : Nat) : Option Nat := if b ≤ a then some (a - b) else none

/-- Panic-aware model of `BSGS::run`: `none` models a panic, `some r` a normal
return with result `r`.  The two `BigUint` subtractions `p - 1` (line 58) and
`p - 2` (line 71) are the only panic sites reached for `p < 2`. -/
def bsgsRunChecked (g h p : Nat) : Option (Option Nat) :=
  match bigSub p 1 with
  | none => none
  | some pm1 =>
    let m := Nat.sqrt pm1 + 1
    let t := buildTable g p (List.range m)
    match bigSub p 2 with
    | none => none
    | some pm2 => some (giantAux h (modpow g (m * pm2) p) p m t m 0)

/-- Panic-aware model of `Parallel::run` with schedule `s`; the subtractions
`p - 1` (line 95) and `p - 2` (line 125) are the panic sites. -/
def parallelRunChecked (s : List Nat) (g h p : Nat) : Option (Option Nat) :=
  match bigSub p 1 with
  | none => none
  | some pm1 =>
    let m := Nat.sqrt pm1 + 1
    let t := buildTable g p s
    match bigSub p 2 with
    | none => none
    | some pm2 => some (giantAux h (modpow g (m * pm2) p) p m t m 0)

/-- The value retained in the table for key `k` after inserting the pairs
`(modpow g j p, j)` for `j ∈ js` in order: the last matching `j`. -/
def lastHit (g p k : Nat) (js : List Nat) : Option Nat :=
  js.foldl (fun acc j => if modpow g j p = k then some j else acc) none

/-- Computation rule for `Nat.sqrt` (whose definition is by well-founded
recursion and does not reduce definitionally). -/
theorem sqrt_eq_of {n s : Nat} (h1 : s * s ≤ n) (h2 : n < (s + 1) * (s + 1)) :
    Nat.sqrt n = s :=
  Nat.le_antisymm (Nat.lt_succ_iff.mp (Nat.sqrt_lt.mpr h2)) (Nat.le_sqrt.mpr h1)

theorem stepBound_5 : stepBound 5 = 3 := by
  have h : Nat.sqrt 4 = 2 := sqrt_eq_of (by decide) (by decide)
  simp [stepBound, h]

/-! Lemmas about the map model. -/

theorem lookupEntry_replaceEntry_self (t : List (Nat × Nat)) (k v : Nat)
    (hc : containsKey t k = true) : lookupEntry (replaceEntry t k v) k = some v := by
  induction t with
  | nil => simp [containsKey] at hc
  | cons a t ih =>
    by_cases ha : a.1 = k
    · simp [replaceEntry, lookupEntry, ha]
    · simp only [containsKey, Bool.or_eq_true, decide_eq_true_eq, ha, false_or] at hc
      simp only [replaceEntry, if_neg ha, lookupEntry, ha, ite_false]
      exact ih hc

theorem lookupEntry_append_single (t : List (Nat × Nat)) (k v : Nat)
    (hc : containsKey t k = false) : lookupEntry (t ++ [(k, v)]) k = some v := by
  induction t with
  | nil => simp [lookupEntry]
  | cons a t ih =>
    simp only [containsKey, Bool.or_eq_false_iff, decide_eq_false_iff_not] at hc
    simpa [lookupEntry, hc.1] using ih hc.2

theorem lookupEntry_insertEntry_self (t : List (Nat × Nat)) (k v : Nat) :
    lookupEntry (insertEntry t k v) k = some v := by
  unfold insertEntry
  by_cases hc : containsKey t k = true
  · rw [if_pos hc]; exact lookupEntry_replaceEntry_self t k v hc
  · rw [if_neg hc]; exact lookupEntry_append_single t k v (Bool.not_eq_true _ ▸ hc)

theorem lookupEntry_insertEntry_ne (t : List (Nat × Nat)) (k v k' : Nat)
    (hne : k' ≠ k) : lookupEntry (insertEntry t k v) k' = lookupEntry t k' := by
  unfold insertEntry
  by_cases hc : containsKey t k = true
  · rw [if_pos hc]
    clear hc
    induction t with
    | nil => rfl
    | cons a t ih =>
      by_cases ha : a.1 = k
      · have hk' : ¬a.1 = k' := by rw [ha]; exact fun h => hne h.symm
        simp only [replaceEntry, if_pos ha, lookupEntry,
          if_neg (fun h : k = k' => hne h.symm), if_neg hk']
        exact ih
      · by_cases ha' : a.1 = k'
        · simp [replaceEntry, if_neg ha, lookupEntry, ha', hne]
        · simp only [replaceEntry, if_neg ha, lookupEntry, if_neg ha']
          exact ih
  · rw [if_neg hc]
    clear hc
    induction t with
    | nil => simp [lookupEntry, Ne.symm hne]
    | cons a t ih =>
      by_cases ha' : a.1 = k'
      · simp [lookupEntry, ha']
      · simpa only [List.cons_append, lookupEntry, if_neg ha'] using ih

theorem mem_replaceEntry (t : List (Nat × Nat)) (k v : Nat) (e : Nat × Nat)
    (he : e ∈ replaceEntry t k v) : e ∈ t ∨ e = (k, v) := by
  induction t with
  | nil => simp [replaceEntry] at he
  | cons a t ih =>
    by_cases ha : a.1 = k
    · rw [replaceEntry, if_pos ha] at he
      rcases List.mem_cons.mp he with h | h
      · exact Or.inr h
      · rcases ih h with h0 | h0
        · exact Or.inl (List.mem_cons_of_mem a h0)
        · exact Or.inr h0
    · rw [replaceEntry, if_neg ha] at he
      rcases List.mem_cons.mp he with h | h
      · exact Or.inl (by rw [h]; exact List.mem_cons_self a t)
      · rcases ih h with h0 | h0
        · exact Or.inl (List.mem_cons_of_mem a h0)
        · exact Or.inr h0

theorem mem_insertEntry (t : List (Nat × Nat)) (k v : Nat) (e : Nat × Nat)
    (he : e ∈ insertEntry t k v) : e ∈ t ∨ e = (k, v) := by
  unfold insertEntry at he
  by_cases hc : containsKey t k = true
  · rw [if_pos hc] at he; exact mem_replaceEntry t k v e he
  · rw [if_neg hc] at he
    rcases List.mem_append.mp he with h | h
    · exact Or.inl h
    · exact Or.inr (by simpa using h)

theorem mem_buildTable (g p : Nat) (js : List Nat) (e : Nat × Nat)
    (he : e ∈ buildTable g p js) : e.2 ∈ js ∧ modpow g e.2 p = e.1 := by
  unfold buildTable at he
  suffices h : ∀ t0 : List (Nat × Nat),
      e ∈ js.foldl (fun t j => insertEntry t (modpow g j p) j) t0 →
      e ∈ t0 ∨ (e.2 ∈ js ∧ modpow g e.2 p = e.1) by
    rcases h [] he with h0 | h0
    · simp at h0
    · exact h0
  clear he
  induction js with
  | nil => intro t0 h; exact Or.inl h
  | cons j js ih =>
    intro t0 h
    rw [List.foldl_cons] at h
    rcases ih _ h with h0 | h0
    · rcases mem_insertEntry _ _ _ _ h0 with h1 | h1
      · exact Or.inl h1
      · right
        constructor
        · rw [h1]; exact List.mem_cons_self j js
        · rw [h1]
    · exact Or.inr ⟨List.mem_cons_of_mem j h0.1, h0.2⟩

theorem lookup_buildTable (g p : Nat) (js : List Nat) (k : Nat) :
    lookupEntry (buildTable g p js) k = lastHit g p k js := by
  unfold buildTable lastHit
  suffices h : ∀ (t0 : List (Nat × Nat)) (acc0 : Option Nat),
      lookupEntry t0 k = acc0 →
      lookupEntry (js.foldl (fun t j => insertEntry t (modpow g j p) j) t0) k
        = js.foldl (fun acc j => if modpow g j p = k then some j else acc) acc0 by
    exact h [] none rfl
  induction js with
  | nil => intro t0 acc0 h; simpa using h
  | cons j js ih =>
    intro t0 acc0 h
    simp only [List.foldl_cons]
    apply ih
    by_cases hm : modpow g j p = k
    · rw [if_pos hm, hm, lookupEntry_insertEntry_self]
    · rw [if_neg hm, lookupEntry_insertEntry_ne _ _ _ _ (fun hk => hm hk.symm)]
      exact h

/-! Lemmas about `lastHit`. -/

theorem foldl_hit_eq_none (g p k : Nat) (js : List Nat) : ∀ acc : Option Nat,
    js.foldl (fun acc j => if modpow g j p = k then some j else acc) acc = none ↔
      acc = none ∧ ∀ j ∈ js, modpow g j p ≠ k := by
  induction js with
  | nil => simp
  | cons j js ih =>
    intro acc
    simp only [List.foldl_cons, ih]
    by_cases hm : modpow g j p = k
    · simp only [if_pos hm]
      constructor
      · rintro ⟨h0, -⟩; exact absurd h0 (by simp)
      · rintro ⟨-, h1⟩; exact absurd hm (h1 j (List.mem_cons_self j js))
    · simp only [if_neg hm, List.mem_cons]
      constructor
      · rintro ⟨h0, h1⟩
        refine ⟨h0, fun x hx => ?_⟩
        rcases hx with rfl | hx
        · exact hm
        · exact h1 x hx
      · rintro ⟨h0, h1⟩
        exact ⟨h0, fun x hx => h1 x (Or.inr hx)⟩

theorem lastHit_eq_none_iff (g p k : Nat) (js : List Nat) :
    lastHit g p k js = none ↔ ∀ j ∈ js, modpow g j p ≠ k := by
  unfold lastHit
  rw [foldl_hit_eq_none]
  simp

theorem foldl_hit_eq_some (g p k : Nat) (js : List Nat) : ∀ (acc : Option Nat) (v : Nat),
    js.foldl (fun acc j => if modpow g j p = k then some j else acc) acc = some v →
      (v ∈ js ∧ modpow g v p = k) ∨ acc = some v := by
  induction js with
  | nil => intro acc v h; exact Or.inr h
  | cons j js ih =>
    intro acc v h
    rw [List.foldl_cons] at h
    rcases ih _ _ h with h0 | h0
    · exact Or.inl ⟨List.mem_cons_of_mem j h0.1, h0.2⟩
    · by_cases hm : modpow g j p = k
      · rw [if_pos hm] at h0
        left
        obtain rfl : j = v := by simpa using h0
        exact ⟨List.mem_cons_self j js, hm⟩
      · rw [if_neg hm] at h0
        exact Or.inr h0

theorem lastHit_eq_some (g p k : Nat) (js : List Nat) (v : Nat)
    (h : lastHit g p k js = some v) : v ∈ js ∧ modpow g v p = k := by
  rcases foldl_hit_eq_some g p k js none v h with h0 | h0
  · exact h0
  · exact absurd h0 (by simp)

theorem lastHit_range_greatest (g p k m v : Nat)
    (h : lastHit g p k (List.range m) = some v) :
    ∀ w, v < w → w < m → modpow g w p ≠ k := by
  induction m with
  | zero => simp [lastHit] at h
  | succ m ih =>
    unfold lastHit at h
    rw [List.range_succ, List.foldl_append, List.foldl_cons, List.foldl_nil] at h
    by_cases hm : modpow g m p = k
    · rw [if_pos hm] at h
      obtain rfl : m = v := by simpa using h
      intro w hvw hwm
      omega
    · rw [if_neg hm] at h
      intro w hvw hwm
      rcases Nat.lt_succ_iff_lt_or_eq.mp hwm with h1 | h1
      · exact ih h w hvw h1
      · subst h1; exact hm

/-! Lemmas about the giant-step loop. -/

theorem giantAux_congr (h c p m : Nat) (t1 t2 : List (Nat × Nat))
    (hlk : ∀ k, lookupEntry t1 k = lookupEntry t2 k) :
    ∀ n i, giantAux h c p m t1 n i = giantAux h c p m t2 n i := by
  intro n
  induction n with
  | zero => intro i; rfl
  | succ n ih =>
    intro i
    simp only [giantAux, hlk]
    cases lookupEntry t2 (giantKey h c p i) with
    | some j => rfl
    | none => exact ih (i + 1)

theorem giantAux_eq_none (h c p m : Nat) (t : List (Nat × Nat))
    (hall : ∀ i, lookupEntry t (giantKey h c p i) = none) :
    ∀ n i, giantAux h c p m t n i = none := by
  intro n
  induction n with
  | zero => intro i; rfl
  | succ n ih =>
    intro i
    simp only [giantAux, hall]
    exact ih (i + 1)

theorem giantAux_none_iff (h c p m : Nat) (t1 t2 : List (Nat × Nat))
    (hlk : ∀ k, lookupEntry t1 k = none ↔ lookupEntry t2 k = none) :
    ∀ n i, (giantAux h c p m t1 n i = none ↔ giantAux h c p m t2 n i = none) := by
  intro n
  induction n with
  | zero => intro i; simp [giantAux]
  | succ n ih =>
    intro i
    simp only [giantAux]
    cases h1 : lookupEntry t1 (giantKey h c p i) with
    | some j =>
      cases h2 : lookupEntry t2 (giantKey h c p i) with
      | some j2 => simp
      | none => exact absurd h1 (by rw [(hlk _).mpr h2]; simp)
    | none =>
      rw [(hlk _).mp h1]
      exact ih (i + 1)

theorem giantAux_eq_some (h c p m : Nat) (t : List (Nat × Nat)) (x : Nat) :
    ∀ n i, giantAux h c p m t n i = some x →
      ∃ d j, d < n ∧ (∀ e, e < d → lookupEntry t (giantKey h c p (i + e)) = none) ∧
        lookupEntry t (giantKey h c p (i + d)) = some j ∧ x = (i + d) * m + j := by
  intro n
  induction n with
  | zero => intro i hx; exact absurd hx (by simp [giantAux])
  | succ n ih =>
    intro i hx
    simp only [giantAux] at hx
    cases h1 : lookupEntry t (giantKey h c p i) with
    | some j =>
      rw [h1] at hx
      refine ⟨0, j, Nat.succ_pos n, fun e he => absurd he (Nat.not_lt_zero e), ?_, ?_⟩
      · simpa using h1
      · simpa using (Option.some.inj hx).symm
    | none =>
      rw [h1] at hx
      obtain ⟨d, j, hd, hprev, hhit, hxe⟩ := ih (i + 1) hx
      refine ⟨d + 1, j, Nat.succ_lt_succ hd, ?_, ?_, ?_⟩
      · intro e he
        cases e with
        | zero => simpa using h1
        | succ e =>
          have h2 := hprev e (by omega)
          have harr : i + (e + 1) = i + 1 + e := by omega
          rw [harr]; exact h2
      · have harr : i + (d + 1) = i + 1 + d := by omega
        rw [harr]; exact hhit
      · have harr : i + (d + 1) = i + 1 + d := by omega
        rw [harr]; exact hxe

/-! Bridging the modular arithmetic into `ZMod p`. -/

theorem cast_modpow (b e p : Nat) : ((modpow b e p : Nat) : ZMod p) = (b : ZMod p) ^ e := by
  unfold modpow
  rw [ZMod.natCast_mod, Nat.cast_pow]

theorem cast_giantKey (h c p i : Nat) :
    ((giantKey h c p i : Nat) : ZMod p) = (h : ZMod p) * (c : ZMod p) ^ i := by
  unfold giantKey
  rw [ZMod.natCast_mod, Nat.cast_mul, cast_modpow]

theorem cast_giantBase (g p : Nat) :
    ((giantBase g p : Nat) : ZMod p) = (g : ZMod p) ^ (stepBound p * (p - 2)) :=
  cast_modpow g (stepBound p * (p - 2)) p

theorem cast_inj_of_lt {p a b : Nat} (hp : 0 < p) (ha : a < p) (hb : b < p)
    (h : (a : ZMod p) = (b : ZMod p)) : a = b := by
  haveI : NeZero p := ⟨Nat.pos_iff_ne_zero.mp hp⟩
  have hv := congrArg ZMod.val h
  rwa [ZMod.val_cast_of_lt ha, ZMod.val_cast_of_lt hb] at hv

theorem cast_ne_zero_of_bounds {p g : Nat} (hp : 0 < p) (hg : 1 ≤ g) (hgp : g < p) :
    (g : ZMod p) ≠ 0 := by
  intro h0
  have := cast_inj_of_lt hp hgp (by omega : 0 < p) (by simpa using h0)
  omega

theorem fermat_pow {p : Nat} (hp : p.Prime) {g : Nat} (hg : 1 ≤ g) (hgp : g < p) :
    (g : ZMod p) ^ (p - 1) = 1 := by
  haveI : Fact p.Prime := ⟨hp⟩
  exact ZMod.pow_card_sub_one_eq_one (cast_ne_zero_of_bounds hp.pos hg hgp)

/-- What a table hit at giant step `i` means: `g^j = h * (g^(m*(p-2)))^i`
in `ZMod p`. -/
theorem hit_equation {g h p : Nat} (i j : Nat)
    (hkey : modpow g j p = giantKey h (giantBase g p) p i) :
    (g : ZMod p) ^ j
      = (h : ZMod p) * ((g : ZMod p) ^ (stepBound p * (p - 2))) ^ i := by
  have hc := congrArg (fun a : Nat => (a : ZMod p)) hkey
  simp only [cast_modpow, cast_giantKey, cast_giantBase] at hc
  exact hc

/-! Core correctness arguments. -/

/-- If the (sequential or parallel) giant-step phase over any baby-step table
returns `some x`, and `g` is a nonzero residue of the prime `p`, then
`g ^ x mod p = h`. -/
theorem run_some_equation (g h p x : Nat) (hp : p.Prime) (hg : 1 ≤ g) (hgp : g < p)
    (hh : h < p) (s : List Nat)
    (hrun : giantAux h (giantBase g p) p (stepBound p)
      (buildTable g p s) (stepBound p) 0 = some x) :
    g ^ x % p = h := by
  obtain ⟨d, j, hd, hmiss, hhit, hxe⟩ := giantAux_eq_some _ _ _ _ _ _ _ _ hrun
  simp only [Nat.zero_add] at hhit hxe
  rw [lookup_buildTable] at hhit
  obtain ⟨-, hkey⟩ := lastHit_eq_some _ _ _ _ _ hhit
  have heq := hit_equation d j hkey
  set m := stepBound p with hmdef
  have hfer := fermat_pow hp hg hgp
  have h2 : 2 ≤ p := hp.two_le
  apply cast_inj_of_lt hp.pos (Nat.mod_lt _ hp.pos) hh
  have hcast : ((g ^ x % p : Nat) : ZMod p) = (g : ZMod p) ^ x := cast_modpow g x p
  rw [hcast, hxe]
  have harith : d * m + m * (p - 2) * d = d * m * (p - 1) := by
    have hps : p - 1 = 1 + (p - 2) := by omega
    rw [hps]; ring
  calc (g : ZMod p) ^ (d * m + j)
      = (g : ZMod p) ^ (d * m) * (g : ZMod p) ^ j := pow_add _ _ _
    _ = (g : ZMod p) ^ (d * m)
          * ((h : ZMod p) * ((g : ZMod p) ^ (m * (p - 2))) ^ d) := by rw [heq]
    _ = (h : ZMod p)
          * ((g : ZMod p) ^ (d * m) * (g : ZMod p) ^ (m * (p - 2) * d)) := by
        rw [← pow_mul]; ring
    _ = (h : ZMod p) * (g : ZMod p) ^ (d * m + m * (p - 2) * d) := by rw [pow_add]
    _ = (h : ZMod p) * (g : ZMod p) ^ (d * m * (p - 1)) := by rw [harith]
    _ = (h : ZMod p) * ((g : ZMod p) ^ (p - 1)) ^ (d * m) := by
        rw [mul_comm (d * m) (p - 1), pow_mul]
    _ = (h : ZMod p) := by rw [hfer, one_pow, mul_one]

/-- If `h` is not a power of `g` modulo a prime `p` with `1 ≤ g < p`, then no
giant-step probe can hit the baby-step table, whatever the insertion
schedule was. -/
theorem lookup_none_of_no_power (g h p : Nat) (hp : p.Prime) (hg : 1 ≤ g)
    (hgp : g < p) (hh : h < p) (hsub : ∀ k : Nat, g ^ k % p ≠ h)
    (s : List Nat) (i : Nat) :
    lookupEntry (buildTable g p s) (giantKey h (giantBase g p) p i) = none := by
  cases hl : lookupEntry (buildTable g p s) (giantKey h (giantBase g p) p i) with
  | none => rfl
  | some j =>
    exfalso
    rw [lookup_buildTable] at hl
    obtain ⟨-, hkey⟩ := lastHit_eq_some _ _ _ _ _ hl
    have heq := hit_equation i j hkey
    set m := stepBound p with hmdef
    have hfer := fermat_pow hp hg hgp
    have harith : m * (p - 2) * i + (p - 2) * (m * (p - 2) * i)
        = m * (p - 2) * i * (p - 1) := by
      have hps : p - 1 = 1 + (p - 2) := by omega
      rw [hps]; ring
    have hK : ((g ^ (j + (p - 2) * (m * (p - 2) * i)) % p : Nat) : ZMod p)
        = (h : ZMod p) := by
      show ((modpow g (j + (p - 2) * (m * (p - 2) * i)) p : Nat) : ZMod p) = (h : ZMod p)
      rw [cast_modpow, pow_add, heq]
      calc (h : ZMod p) * ((g : ZMod p) ^ (m * (p - 2))) ^ i
            * (g : ZMod p) ^ ((p - 2) * (m * (p - 2) * i))
          = (h : ZMod p) * ((g : ZMod p) ^ (m * (p - 2) * i)
              * (g : ZMod p) ^ ((p - 2) * (m * (p - 2) * i))) := by
            rw [← pow_mul]; ring
        _ = (h : ZMod p)
              * (g : ZMod p) ^ (m * (p - 2) * i + (p - 2) * (m * (p - 2) * i)) := by
            rw [pow_add]
        _ = (h : ZMod p) * (g : ZMod p) ^ (m * (p - 2) * i * (p - 1)) := by rw [harith]
        _ = (h : ZMod p) * ((g : ZMod p) ^ (p - 1)) ^ (m * (p - 2) * i) := by
            rw [mul_comm (m * (p - 2) * i) (p - 1), pow_mul]
        _ = (h : ZMod p) := by rw [hfer, one_pow, mul_one]
    exact hsub _ (cast_inj_of_lt hp.pos (Nat.mod_lt _ hp.pos) hh hK)

/-! Claim C1. -/

/-- C1 (amended): for a prime `p` and reduced inputs with a *nonzero*
generator (`1 ≤ g < p`, `0 ≤ h < p`), if `BSGS::run` or `Parallel::run`
(under any insertion schedule) returns `Some x`, then `g ^ x mod p = h`
holds exactly.  The original claim, which also admits `g = 0`, is refuted by
`C1_counterexample`. -/
theorem C1_roundtrip (g h p x : Nat) (hp : p.Prime) (hg : 1 ≤ g) (hgp : g < p)
    (hh : h < p) :
    (bsgsRun g h p = some x → g ^ x % p = h) ∧
    (∀ s : List Nat, parallelRun s g h p = some x → g ^ x % p = h) := by
  constructor
  · intro hrun
    exact run_some_equation g h p x hp hg hgp hh (List.range (stepBound p)) hrun
  · intro s hrun
    exact run_some_equation g h p x hp hg hgp hh s hrun

/-- C1 witness: `2^x = 4 (mod 5)` is solved by the returned `x = 2`. -/
theorem C1_roundtrip_witness : bsgsRun 2 4 5 = some 2 ∧ 2 ^ 2 % 5 = 4 := by
  have hrun : bsgsRun 2 4 5 = some 2 := by
    unfold bsgsRun giantBase; rw [stepBound_5]; decide
  exact ⟨hrun,
    (C1_roundtrip 2 4 5 2 (by norm_num) (by norm_num) (by norm_num)
      (by norm_num)).1 hrun⟩

/-- C1 counterexample: the claim as stated admits `g = 0`; at
`g = 0, h = 2, p = 5` (prime, `0 ≤ g, h < p`) the solver returns `Some 5`
although `0 ^ 5 mod 5 = 0 ≠ 2`. -/
theorem C1_counterexample :
    Nat.Prime 5 ∧ (0 : Nat) < 5 ∧ (2 : Nat) < 5 ∧
      bsgsRun 0 2 5 = some 5 ∧ 0 ^ 5 % 5 ≠ 2 := by
  refine ⟨by norm_num, by norm_num, by norm_num, ?_, by decide⟩
  unfold bsgsRun giantBase; rw [stepBound_5]; decide

/-! Claim C4. -/

/-- C4 (amended): for a prime `p` and reduced inputs with a *nonzero*
generator (`1 ≤ g < p`, `0 ≤ h < p`), if `h` is not a power of `g` modulo
`p`, then `BSGS::run` returns `None`, and so does `Parallel::run` under every
insertion schedule; the absent result is the `Option` value `none`, and the
model is a total function, so the scan terminates after the full giant-step
range.  The original claim, which also admits `g = 0`, is refuted by
`C4_counterexample`. -/
theorem C4_not_found (g h p : Nat) (hp : p.Prime) (hg : 1 ≤ g) (hgp : g < p)
    (hh : h < p) (hsub : ∀ k : Nat, g ^ k % p ≠ h) :
    bsgsRun g h p = none ∧ ∀ s : List Nat, parallelRun s g h p = none := by
  constructor
  · exact giantAux_eq_none h (giantBase g p) p (stepBound p) _
      (lookup_none_of_no_power g h p hp hg hgp hh hsub (List.range (stepBound p)))
      (stepBound p) 0
  · intro s
    exact giantAux_eq_none h (giantBase g p) p (stepBound p) _
      (lookup_none_of_no_power g h p hp hg hgp hh hsub s) (stepBound p) 0

/-- C4 witness: `2` is not a power of `1` modulo `5` and the sequential
solver returns `none`. -/
theorem C4_not_found_witness :
    (∀ k : Nat, 1 ^ k % 5 ≠ 2) ∧ bsgsRun 1 2 5 = none := by
  have hsub : ∀ k : Nat, 1 ^ k % 5 ≠ 2 := by intro k; simp
  exact ⟨hsub,
    (C4_not_found 1 2 5 (by norm_num) (by norm_num) (by norm_num) (by norm_num)
      hsub).1⟩

/-- C4 counterexample: the claim as stated admits `g = 0`; at
`g = 0, h = 2, p = 5`, `h` is not in the set of powers of `g` modulo `p`,
yet the solver returns `Some 5` rather than `None`. -/
theorem C4_counterexample :
    Nat.Prime 5 ∧ (∀ k : Nat, 0 ^ k % 5 ≠ 2) ∧ bsgsRun 0 2 5 ≠ none := by
  refine ⟨by norm_num, ?_, ?_⟩
  · intro k
    cases k with
    | zero => decide
    | succ k => simp [pow_succ]
  · have hrun : bsgsRun 0 2 5 = some 5 := by
      unfold bsgsRun giantBase; rw [stepBound_5]; decide
    rw [hrun]; simp

/-! Claim C3. -/

/-- C3: for `p ≥ 2` both solvers use the step bound
`m = floor (sqrt (p-1)) + 1`, computed with exact integer arithmetic; it
satisfies `m * m ≥ p - 1` and the grid `[0, m) × [0, m)` of exponents
`i * m + j` covers every exponent up to `p - 1`. -/
theorem C3_step_bound (p : Nat) (hp : 2 ≤ p) :
    stepBound p = Nat.sqrt (p - 1) + 1 ∧
    p - 1 ≤ stepBound p * stepBound p ∧
    ∀ x, x ≤ p - 1 →
      ∃ i, i < stepBound p ∧ ∃ j, j < stepBound p ∧ x = i * stepBound p + j := by
  have hlt : p - 1 < stepBound p * stepBound p := Nat.lt_succ_sqrt (p - 1)
  refine ⟨rfl, Nat.le_of_lt hlt, ?_⟩
  intro x hx
  have hmpos : 0 < stepBound p := Nat.succ_pos _
  have hxlt : x < stepBound p * stepBound p := lt_of_le_of_lt hx hlt
  refine ⟨x / stepBound p, ?_, x % stepBound p, Nat.mod_lt _ hmpos, ?_⟩
  · exact (Nat.div_lt_iff_lt_mul hmpos).mpr hxlt
  · have hdm := Nat.div_add_mod x (stepBound p)
    rw [Nat.mul_comm] at hdm
    exact hdm.symm

/-- C3 witness at `p = 5`: the bound is `3` and `3 * 3 ≥ 4`. -/
theorem C3_step_bound_witness :
    (2 : Nat) ≤ 5 ∧
      (stepBound 5 = Nat.sqrt 4 + 1 ∧
        5 - 1 ≤ stepBound 5 * stepBound 5 ∧
        ∀ x, x ≤ 5 - 1 →
          ∃ i, i < stepBound 5 ∧ ∃ j, j < stepBound 5 ∧ x = i * stepBound 5 + j) :=
  ⟨by norm_num, C3_step_bound 5 (by norm_num)⟩

/-! Claim C8. -/

theorem mem_range'_iff {s n x : Nat} : x ∈ List.range' s n ↔ s ≤ x ∧ x < s + n := by
  rw [List.mem_range']
  constructor
  · rintro ⟨i, hi, rfl⟩; omega
  · intro h1; exact ⟨x - s, by omega, by omega⟩

theorem chunk_last (m nw : Nat) :
    chunk m nw (nw - 1) = List.range' ((nw - 1) * (m / nw)) (m - (nw - 1) * (m / nw)) := by
  simp [chunk]

theorem chunk_not_last (m nw t : Nat) (ht : t ≠ nw - 1) :
    chunk m nw t = List.range' (t * (m / nw)) (m / nw) := by
  simp [chunk, ht]

theorem last_chunk_start_le (m nw : Nat) : (nw - 1) * (m / nw) ≤ m :=
  le_trans (Nat.mul_le_mul_right _ (Nat.sub_le nw 1)) (by
    rw [Nat.mul_comm]; exact Nat.div_mul_le_self m nw)

/-- C8: the worker sub-ranges of `Parallel::run` partition `[0, m)`: every
chunk but the last has exactly `m / num_workers` elements, the chunks cover
exactly the indices below `m`, and distinct chunks are disjoint. -/
theorem C8_partition (m nw : Nat) (hm : 1 ≤ m) (hnw : 1 ≤ nw) :
    (∀ t, t < nw - 1 → (chunk m nw t).length = m / nw) ∧
    (∀ x, x < m ↔ ∃ t, t < nw ∧ x ∈ chunk m nw t) ∧
    (∀ t1 t2, t1 < t2 → t2 < nw → ∀ x, x ∈ chunk m nw t1 → x ∉ chunk m nw t2) := by
  have hlast : (nw - 1) * (m / nw) ≤ m := last_chunk_start_le m nw
  refine ⟨?_, ?_, ?_⟩
  · intro t ht
    rw [chunk_not_last m nw t (by omega), List.length_range']
  · intro x
    constructor
    · intro hx
      by_cases hcs : m / nw = 0
      · refine ⟨nw - 1, by omega, ?_⟩
        rw [chunk_last, hcs, Nat.mul_zero, mem_range'_iff]
        omega
      · have hcpos : 0 < m / nw := Nat.pos_of_ne_zero hcs
        by_cases hdiv : x / (m / nw) < nw - 1
        · refine ⟨x / (m / nw), by omega, ?_⟩
          rw [chunk_not_last m nw _ (by omega), mem_range'_iff]
          have hdm := Nat.div_add_mod x (m / nw)
          have hmod := Nat.mod_lt x hcpos
          have e1 : x / (m / nw) * (m / nw) = m / nw * (x / (m / nw)) :=
            Nat.mul_comm _ _
          omega
        · refine ⟨nw - 1, by omega, ?_⟩
          rw [chunk_last, mem_range'_iff]
          have h2 : (nw - 1) * (m / nw) ≤ x / (m / nw) * (m / nw) :=
            Nat.mul_le_mul_right _ (by omega)
          have h3 : x / (m / nw) * (m / nw) ≤ x := Nat.div_mul_le_self x (m / nw)
          omega
    · rintro ⟨t, ht, hx⟩
      by_cases htl : t = nw - 1
      · subst htl
        rw [chunk_last, mem_range'_iff] at hx
        omega
      · rw [chunk_not_last m nw t htl, mem_range'_iff] at hx
        have h2 : (t + 1) * (m / nw) ≤ (nw - 1) * (m / nw) :=
          Nat.mul_le_mul_right _ (by omega)
        rw [Nat.succ_mul] at h2
        omega
  · intro t1 t2 h12 h2nw x hx1 hx2
    have ht1 : t1 ≠ nw - 1 := by omega
    rw [chunk_not_last m nw t1 ht1, mem_range'_iff] at hx1
    have hs2 : t2 * (m / nw) ≤ x := by
      by_cases htl : t2 = nw - 1
      · subst htl; rw [chunk_last, mem_range'_iff] at hx2; exact hx2.1
      · rw [chunk_not_last m nw t2 htl, mem_range'_iff] at hx2; exact hx2.1
    have hle : (t1 + 1) * (m / nw) ≤ t2 * (m / nw) :=
      Nat.mul_le_mul_right _ (by omega)
    rw [Nat.succ_mul] at hle
    omega

/-- C8 witness at `m = 3`, `num_workers = 2`: chunks `[0]` and `[1, 2]`. -/
theorem C8_partition_witness :
    (1 : Nat) ≤ 3 ∧ (1 : Nat) ≤ 2 ∧
      ((∀ t, t < 2 - 1 → (chunk 3 2 t).length = 3 / 2) ∧
       (∀ x, x < 3 ↔ ∃ t, t < 2 ∧ x ∈ chunk 3 2 t) ∧
       (∀ t1 t2, t1 < t2 → t2 < 2 → ∀ x, x ∈ chunk 3 2 t1 → x ∉ chunk 3 2 t2)) :=
  ⟨by norm_num, by norm_num, C8_partition 3 2 (by norm_num) (by norm_num)⟩

/-- The insertion order `1, 2, 0` is a valid two-worker interleaving for
`m = stepBound 5 = 3`: worker 0 owns chunk `[0]`, worker 1 owns `[1, 2]`. -/
theorem schedule_120 : IsSchedule (stepBound 5) 2 [1, 2, 0] := by
  rw [stepBound_5]
  constructor
  · decide
  · intro t ht
    interval_cases t
    · decide
    · decide

/-! Claim C5. -/

/-- C5: every entry `(k, j)` of the baby-step table satisfies
`g ^ j mod p = k` and `0 ≤ j < m`, for the sequential table and for the
table built under any valid interleaving of the parallel workers. -/
theorem C5_table_invariant (g p nw : Nat) (s : List Nat)
    (hs : IsSchedule (stepBound p) nw s) :
    (∀ e ∈ buildTable g p (List.range (stepBound p)),
        modpow g e.2 p = e.1 ∧ e.2 < stepBound p) ∧
    (∀ e ∈ buildTable g p s, modpow g e.2 p = e.1 ∧ e.2 < stepBound p) := by
  constructor
  · intro e he
    obtain ⟨hmem, hkey⟩ := mem_buildTable g p _ e he
    exact ⟨hkey, List.mem_range.mp hmem⟩
  · intro e he
    obtain ⟨hmem, hkey⟩ := mem_buildTable g p _ e he
    have hm : e.2 ∈ List.range (stepBound p) := hs.1.mem_iff.mp hmem
    exact ⟨hkey, List.mem_range.mp hm⟩

/-- C5 witness at `g = 2, p = 5` with the two-worker schedule `1, 2, 0`. -/
theorem C5_table_invariant_witness :
    IsSchedule (stepBound 5) 2 [1, 2, 0] ∧
      ((∀ e ∈ buildTable 2 5 (List.range (stepBound 5)),
          modpow 2 e.2 5 = e.1 ∧ e.2 < stepBound 5) ∧
       (∀ e ∈ buildTable 2 5 [1, 2, 0], modpow 2 e.2 5 = e.1 ∧ e.2 < stepBound 5)) :=
  ⟨schedule_120, C5_table_invariant 2 5 2 [1, 2, 0] schedule_120⟩

/-! Claim C6. -/

/-- C6 (amended): the baby-step table maps each group element `k` it contains
to the *largest* exponent `j < m` with `g ^ j mod p = k` (the sequential
baby-step loop inserts `j` in increasing order and each insertion overwrites
the previous value of its key), and it contains every element of the form
`g ^ j mod p` with `j < m`.  The original claim (smallest exponent) is
refuted by `C6_counterexample`. -/
theorem C6_largest_exponent (g p : Nat) :
    (∀ k j, lookupEntry (buildTable g p (List.range (stepBound p))) k = some j →
      j < stepBound p ∧ modpow g j p = k ∧
        ∀ j2, j < j2 → j2 < stepBound p → modpow g j2 p ≠ k) ∧
    (∀ j, j < stepBound p →
      lookupEntry (buildTable g p (List.range (stepBound p))) (modpow g j p) ≠ none) := by
  constructor
  · intro k j hlk
    rw [lookup_buildTable] at hlk
    obtain ⟨hmem, hkey⟩ := lastHit_eq_some _ _ _ _ _ hlk
    exact ⟨List.mem_range.mp hmem, hkey, lastHit_range_greatest _ _ _ _ _ hlk⟩
  · intro j hj hnone
    rw [lookup_buildTable, lastHit_eq_none_iff] at hnone
    exact hnone j (List.mem_range.mpr hj) rfl

/-- C6 witness: at `g = 2, p = 5` the table maps `4` to `2`, the largest
exponent below `stepBound 5 = 3` with `2 ^ j mod 5 = 4`. -/
theorem C6_largest_exponent_witness :
    lookupEntry (buildTable 2 5 (List.range (stepBound 5))) 4 = some 2 ∧
      (2 < stepBound 5 ∧ modpow 2 2 5 = 4 ∧
        ∀ j2, 2 < j2 → j2 < stepBound 5 → modpow 2 j2 5 ≠ 4) := by
  have hlk : lookupEntry (buildTable 2 5 (List.range (stepBound 5))) 4 = some 2 := by
    rw [stepBound_5]; decide
  exact ⟨hlk, (C6_largest_exponent 2 5).1 4 2 hlk⟩

/-- C6 counterexample: at `g = 1, p = 5` the table maps the element `1` to the
exponent `2`, yet the smaller exponent `0 < 2` also satisfies
`1 ^ 0 mod 5 = 1` — the table does not hold the smallest exponent. -/
theorem C6_counterexample :
    lookupEntry (buildTable 1 5 (List.range (stepBound 5))) 1 = some 2 ∧
      modpow 1 0 5 = 1 ∧ (0 : Nat) < 2 := by
  refine ⟨?_, by decide, by decide⟩
  rw [stepBound_5]; decide

/-! Claim C7. -/

/-- C7: when either solver returns `Some x`, there is a giant-step index
`i < m` whose probe hits the table at value `j` with `x = i * m + j`, and
every probe at an index smaller than `i` misses: the scan runs by increasing
`i` and short-circuits on the first hit. -/
theorem C7_first_hit (g h p x : Nat) :
    (bsgsRun g h p = some x →
      ∃ i j, i < stepBound p ∧
        (∀ i2, i2 < i →
          lookupEntry (buildTable g p (List.range (stepBound p)))
            (giantKey h (giantBase g p) p i2) = none) ∧
        lookupEntry (buildTable g p (List.range (stepBound p)))
          (giantKey h (giantBase g p) p i) = some j ∧
        x = i * stepBound p + j) ∧
    (∀ s : List Nat, parallelRun s g h p = some x →
      ∃ i j, i < stepBound p ∧
        (∀ i2, i2 < i →
          lookupEntry (buildTable g p s) (giantKey h (giantBase g p) p i2) = none) ∧
        lookupEntry (buildTable g p s) (giantKey h (giantBase g p) p i) = some j ∧
        x = i * stepBound p + j) := by
  constructor
  · intro hrun
    obtain ⟨d, j, hd, hmiss, hhit, hxe⟩ := giantAux_eq_some _ _ _ _ _ _ _ _ hrun
    simp only [Nat.zero_add] at hmiss hhit hxe
    exact ⟨d, j, hd, hmiss, hhit, hxe⟩
  · intro s hrun
    obtain ⟨d, j, hd, hmiss, hhit, hxe⟩ := giantAux_eq_some _ _ _ _ _ _ _ _ hrun
    simp only [Nat.zero_add] at hmiss hhit hxe
    exact ⟨d, j, hd, hmiss, hhit, hxe⟩

/-- C7 witness: at `g = 2, h = 4, p = 5` the first hit is at `i = 0` with
`j = 2`. -/
theorem C7_first_hit_witness :
    bsgsRun 2 4 5 = some 2 ∧
      (∃ i j, i < stepBound 5 ∧
        (∀ i2, i2 < i →
          lookupEntry (buildTable 2 5 (List.range (stepBound 5)))
            (giantKey 4 (giantBase 2 5) 5 i2) = none) ∧
        lookupEntry (buildTable 2 5 (List.range (stepBound 5)))
          (giantKey 4 (giantBase 2 5) 5 i) = some j ∧
        2 = i * stepBound 5 + j) := by
  have hrun : bsgsRun 2 4 5 = some 2 := by
    unfold bsgsRun giantBase; rw [stepBound_5]; decide
  exact ⟨hrun, (C7_first_hit 2 4 5 2).1 hrun⟩

/-! Claim C2. -/

/-- C2 (amended): for every input and every valid worker interleaving, the
sequential and parallel solvers agree on whether a result is found (both
`None` together); and when the baby-step keys `g ^ j mod p`, `j < m`, are
pairwise distinct, the returned exponents are identical.  When keys collide
(`g` of small order), the parallel result can depend on the interleaving and
differ from the sequential one: see `C2_counterexample`. -/
theorem C2_equivalence (g h p nw : Nat) (s : List Nat)
    (hs : IsSchedule (stepBound p) nw s) :
    ((bsgsRun g h p = none) ↔ (parallelRun s g h p = none)) ∧
    ((∀ a, a < stepBound p → ∀ b, b < stepBound p →
        modpow g a p = modpow g b p → a = b) →
      bsgsRun g h p = parallelRun s g h p) := by
  obtain ⟨hperm, -⟩ := hs
  constructor
  · apply giantAux_none_iff
    intro k
    rw [lookup_buildTable, lookup_buildTable, lastHit_eq_none_iff,
      lastHit_eq_none_iff]
    constructor
    · intro hall j hj
      exact hall j (hperm.mem_iff.mp hj)
    · intro hall j hj
      exact hall j (hperm.mem_iff.mpr hj)
  · intro hinj
    apply giantAux_congr
    intro k
    rw [lookup_buildTable, lookup_buildTable]
    cases hr : lastHit g p k (List.range (stepBound p)) with
    | none =>
      rw [lastHit_eq_none_iff] at hr
      cases hss : lastHit g p k s with
      | none => rfl
      | some j =>
        obtain ⟨hjs, hjk⟩ := lastHit_eq_some _ _ _ _ _ hss
        exact absurd hjk (hr j (hperm.mem_iff.mp hjs))
    | some j =>
      obtain ⟨hjm, hjk⟩ := lastHit_eq_some _ _ _ _ _ hr
      cases hss : lastHit g p k s with
      | none =>
        rw [lastHit_eq_none_iff] at hss
        exact absurd hjk (hss j (hperm.mem_iff.mpr hjm))
      | some j2 =>
        obtain ⟨hj2, hj2k⟩ := lastHit_eq_some _ _ _ _ _ hss
        have he : j2 = j :=
          hinj j2 (List.mem_range.mp (hperm.mem_iff.mp hj2)) j
            (List.mem_range.mp hjm) (by rw [hjk, hj2k])
        rw [he]

/-- C2 witness: at `g = 2, h = 4, p = 5` the baby-step keys are distinct and
the two solvers agree under the two-worker interleaving `1, 2, 0`. -/
theorem C2_equivalence_witness :
    IsSchedule (stepBound 5) 2 [1, 2, 0] ∧
      ((bsgsRun 2 4 5 = none) ↔ (parallelRun [1, 2, 0] 2 4 5 = none)) ∧
      bsgsRun 2 4 5 = parallelRun [1, 2, 0] 2 4 5 := by
  obtain ⟨h1, h2⟩ := C2_equivalence 2 4 5 2 [1, 2, 0] schedule_120
  refine ⟨schedule_120, h1, h2 ?_⟩
  rw [stepBound_5]
  decide

/-- C2 counterexample: at `g = h = 1, p = 5` (where all baby-step keys are
the colliding element `1`), the valid two-worker interleaving `1, 2, 0`
makes `Parallel::run` return `Some 0` while `BSGS::run` returns `Some 2`:
the parallel result depends on the interleaving and differs from the
sequential one. -/
theorem C2_counterexample :
    IsSchedule (stepBound 5) 2 [1, 2, 0] ∧
      parallelRun [1, 2, 0] 1 1 5 = some 0 ∧ bsgsRun 1 1 5 = some 2 := by
  refine ⟨schedule_120, ?_, ?_⟩
  · unfold parallelRun giantBase; rw [stepBound_5]; decide
  · unfold bsgsRun giantBase; rw [stepBound_5]; decide

/-! Claim C9. -/

/-- C9: for `p ≥ 2` the subtractions `p - 1` and `p - 2` never underflow and
both solvers return normally (the panic-aware model returns `some` of the
plain model's result); for `p = 0` the computation of `p - 1` panics and for
`p = 1` the computation of `p - 2` panics, in both solvers. -/
theorem C9_totality :
    (∀ g h p, 2 ≤ p → bsgsRunChecked g h p = some (bsgsRun g h p)) ∧
    (∀ s g h p, 2 ≤ p → parallelRunChecked s g h p = some (parallelRun s g h p)) ∧
    (∀ g h, bsgsRunChecked g h 0 = none) ∧
    (∀ g h, bsgsRunChecked g h 1 = none) ∧
    (∀ s g h, parallelRunChecked s g h 0 = none) ∧
    (∀ s g h, parallelRunChecked s g h 1 = none) := by
  refine ⟨?_, ?_, ?_, ?_, ?_, ?_⟩
  · intro g h p hp
    simp only [bsgsRunChecked, bigSub, if_pos (by omega : 1 ≤ p),
      if_pos (by omega : 2 ≤ p)]
    rfl
  · intro s g h p hp
    simp only [parallelRunChecked, bigSub, if_pos (by omega : 1 ≤ p),
      if_pos (by omega : 2 ≤ p)]
    rfl
  · intro g h; rfl
  · intro g h; rfl
  · intro s g h; rfl
  · intro s g h; rfl

/-- C9 witness at `p = 5`: the checked model returns normally. -/
theorem C9_totality_witness :
    (2 : Nat) ≤ 5 ∧ bsgsRunChecked 2 4 5 = some (bsgsRun 2 4 5) :=
  ⟨by norm_num, C9_totality.1 2 4 5 (by norm_num)⟩

/-! Claim C10. -/

/-- C10: whenever either solver returns `Some x`, then `x = i * m + j` for
some `i, j < m`, hence `x ≤ m * m - 1`; and the result is not reduced modulo
`p` — at `g = 0, h = 2, p = 5` the returned exponent `5` exceeds `p - 1`. -/
theorem C10_result_shape :
    (∀ g h p x, 2 ≤ p → bsgsRun g h p = some x →
      ∃ i j, i < stepBound p ∧ j < stepBound p ∧ x = i * stepBound p + j ∧
        x ≤ stepBound p * stepBound p - 1) ∧
    (∀ g h p x nw s, 2 ≤ p → IsSchedule (stepBound p) nw s →
      parallelRun s g h p = some x →
      ∃ i j, i < stepBound p ∧ j < stepBound p ∧ x = i * stepBound p + j ∧
        x ≤ stepBound p * stepBound p - 1) ∧
    (∃ g h p x, 2 ≤ p ∧ bsgsRun g h p = some x ∧ p - 1 < x) := by
  refine ⟨?_, ?_, ?_⟩
  · intro g h p x hp hrun
    obtain ⟨d, j, hd, -, hhit, hxe⟩ := giantAux_eq_some _ _ _ _ _ _ _ _ hrun
    simp only [Nat.zero_add] at hhit hxe
    rw [lookup_buildTable] at hhit
    obtain ⟨hjm, -⟩ := lastHit_eq_some _ _ _ _ _ hhit
    have hj : j < stepBound p := List.mem_range.mp hjm
    refine ⟨d, j, hd, hj, hxe, ?_⟩
    have h1 : d * stepBound p ≤ (stepBound p - 1) * stepBound p :=
      Nat.mul_le_mul_right _ (by omega)
    have h2 : (stepBound p - 1) * stepBound p
        = stepBound p * stepBound p - 1 * stepBound p := Nat.sub_mul _ _ _
    have h3 : stepBound p * 1 ≤ stepBound p * stepBound p :=
      Nat.mul_le_mul_left _ (by omega)
    omega
  · intro g h p x nw s hp hs hrun
    obtain ⟨d, j, hd, -, hhit, hxe⟩ := giantAux_eq_some _ _ _ _ _ _ _ _ hrun
    simp only [Nat.zero_add] at hhit hxe
    rw [lookup_buildTable] at hhit
    obtain ⟨hjs, -⟩ := lastHit_eq_some _ _ _ _ _ hhit
    have hj : j < stepBound p := List.mem_range.mp (hs.1.mem_iff.mp hjs)
    refine ⟨d, j, hd, hj, hxe, ?_⟩
    have h1 : d * stepBound p ≤ (stepBound p - 1) * stepBound p :=
      Nat.mul_le_mul_right _ (by omega)
    have h2 : (stepBound p - 1) * stepBound p
        = stepBound p * stepBound p - 1 * stepBound p := Nat.sub_mul _ _ _
    have h3 : stepBound p * 1 ≤ stepBound p * stepBound p :=
      Nat.mul_le_mul_left _ (by omega)
    omega
  · refine ⟨0, 2, 5, 5, by norm_num, ?_, by norm_num⟩
    unfold bsgsRun giantBase; rw [stepBound_5]; decide

/-- C10 witness: at `g = 2, h = 4, p = 5` the result `2` decomposes over the
grid with bound `stepBound 5 = 3`. -/
theorem C10_result_shape_witness :
    (2 : Nat) ≤ 5 ∧ bsgsRun 2 4 5 = some 2 ∧
      (∃ i j, i < stepBound 5 ∧ j < stepBound 5 ∧ 2 = i * stepBound 5 + j ∧
        2 ≤ stepBound 5 * stepBound 5 - 1) := by
  have hrun : bsgsRun 2 4 5 = some 2 := by
    unfold bsgsRun giantBase; rw [stepBound_5]; decide
  exact ⟨by norm_num, hrun, C10_result_shape.1 2 4 5 2 (by norm_num) hrun⟩
